import Mathlib

set_option linter.unusedVariables false

/-!
# Verification of a set-associative cache simulator

Shallow embedding of the cache simulation engine of `src/main.cpp`
(`CacheBlock`, `CacheSet`, `CacheSimulator` and its member functions
`processAccess`, `processLoad`, `processStore`, `allocateBlock`,
`evictBlock`), followed by theorems settling the specification claims.

Machine `unsigned int` values are modelled as `Nat`: every quantity the
simulator manipulates (tags, set indices, counters, statistics) only
grows by small increments from 0, and addresses are constrained to
`< 2^32` where the claims require it.
-/

namespace CacheSim

/-- `struct CacheBlock` of `src/main.cpp`: valid bit, dirty bit, tag and
the recency stamp `lru_count`. -/
structure CacheBlock where
  valid : Bool
  dirty : Bool
  tag : Nat
  lru_count : Nat
  deriving Repr, DecidableEq

/-- The default-constructed block: `valid(false), dirty(false), tag(0), lru_count(0)`. -/
def CacheBlock.init : CacheBlock := ⟨false, false, 0, 0⟩

/-- The configuration parameters the `CacheSimulator` constructor receives. -/
structure CacheConfig where
  num_sets : Nat
  num_blocks_per_set : Nat
  block_size : Nat
  write_allocate : Bool
  write_through : Bool
  lru_eviction : Bool
  deriving Repr, DecidableEq

/-- Fuel-bounded binary logarithm; with fuel `n` it computes `⌊log2 n⌋`
(see `log2i_eq_log2` below), which is what `std::log2` returns on the
power-of-two arguments `main` accepts. -/
def log2Fuel : Nat → Nat → Nat
  | 0, _ => 0
  | fuel + 1, n => if 2 ≤ n then log2Fuel fuel (n / 2) + 1 else 0

/-- Integer binary logarithm, kernel-reducible. -/
def log2i (n : Nat) : Nat := log2Fuel n n

/-- `set_bits = std::log2(num_sets)` (exact on the power-of-two inputs accepted by `main`). -/
def CacheConfig.set_bits (cfg : CacheConfig) : Nat := log2i cfg.num_sets

/-- `block_bits = std::log2(block_size)` (exact on the power-of-two inputs accepted by `main`). -/
def CacheConfig.block_bits (cfg : CacheConfig) : Nat := log2i cfg.block_size

/-- The mutable state of `CacheSimulator`: the sets (each a list of
`num_blocks_per_set` blocks), the global recency counter and the seven
statistics counters. -/
structure SimState where
  sets : List (List CacheBlock)
  global_counter : Nat
  total_loads : Nat
  total_stores : Nat
  load_hits : Nat
  load_misses : Nat
  store_hits : Nat
  store_misses : Nat
  total_cycles : Nat
  deriving Repr, DecidableEq

/-- The state built by the `CacheSimulator` constructor: `num_sets` sets of
`num_blocks_per_set` default blocks, all counters zero. -/
def initState (cfg : CacheConfig) : SimState :=
  { sets := List.replicate cfg.num_sets (List.replicate cfg.num_blocks_per_set CacheBlock.init)
    global_counter := 0
    total_loads := 0, total_stores := 0
    load_hits := 0, load_misses := 0
    store_hits := 0, store_misses := 0
    total_cycles := 0 }

/-- The hit scan shared by `processLoad` and `processStore`:
first index `i` with `set.blocks[i].valid && set.blocks[i].tag == tag`. -/
def findHitIdx (blocks : List CacheBlock) (tag : Nat) : Option Nat :=
  blocks.findIdx? (fun b => b.valid && b.tag == tag)

/-- The victim scan of `evictBlock`: starting from `evict_index = 0`, take
index `i` whenever `blocks[i].lru_count` is strictly below the running
minimum (so the first minimal index wins).  `i` is the index of the head
of `blocks` in the full set. -/
def scanMinLRU (blocks : List CacheBlock) (i best : Nat) (minC : Nat) : Nat :=
  match blocks with
  | [] => best
  | b :: rest =>
      if b.lru_count < minC then scanMinLRU rest (i + 1) i b.lru_count
      else scanMinLRU rest (i + 1) best minC

/-- `evictBlock`'s victim choice.  The source keeps two branches on
`lru_eviction`, but (as its own comment `fifo doesnt work yet` admits)
both run the identical minimum-`lru_count` scan. -/
def evictIndex (lru_eviction : Bool) (blocks : List CacheBlock) : Nat :=
  if lru_eviction then
    match blocks with
    | [] => 0
    | b :: rest => scanMinLRU rest 1 0 b.lru_count
  else
    match blocks with
    | [] => 0
    | b :: rest => scanMinLRU rest 1 0 b.lru_count

/-- `CacheSimulator::evictBlock(set, tag)`: pick the victim, accrue the
dirty write-back cost when not write-through, overwrite the victim slot.
Returns (new blocks, new global counter, extra cycles). -/
def evictBlock (cfg : CacheConfig) (blocks : List CacheBlock) (tag : Nat)
    (gc : Nat) : List CacheBlock × Nat × Nat :=
  let ei := evictIndex cfg.lru_eviction blocks
  let wb := if (blocks.getD ei CacheBlock.init).dirty && !cfg.write_through
            then 100 * (cfg.block_size / 4) else 0
  (blocks.set ei ⟨true, false, tag, gc + 1⟩, gc + 1, wb)

/-- `CacheSimulator::allocateBlock(set, tag)`: install into the first
invalid slot, or fall through to `evictBlock` when the set is full.
Returns (new blocks, new global counter, extra cycles). -/
def allocateBlock (cfg : CacheConfig) (blocks : List CacheBlock) (tag : Nat)
    (gc : Nat) : List CacheBlock × Nat × Nat :=
  match blocks.findIdx? (fun b => !b.valid) with
  | some i => (blocks.set i ⟨true, false, tag, gc + 1⟩, gc + 1, 0)
  | none => evictBlock cfg blocks tag gc

/-- `CacheSimulator::processLoad(set_index, tag)`. -/
def processLoad (cfg : CacheConfig) (st : SimState) (set_index tag : Nat) : SimState :=
  let st := { st with total_loads := st.total_loads + 1,
                      total_cycles := st.total_cycles + 1 }
  let blocks := st.sets.getD set_index []
  match findHitIdx blocks tag with
  | some i =>
      let b := blocks.getD i CacheBlock.init
      { st with load_hits := st.load_hits + 1
                global_counter := st.global_counter + 1
                sets := st.sets.set set_index
                  (blocks.set i { b with lru_count := st.global_counter + 1 }) }
  | none =>
      let st := { st with load_misses := st.load_misses + 1
                          total_cycles := st.total_cycles + 100 * (cfg.block_size / 4) }
      let r := allocateBlock cfg blocks tag st.global_counter
      { st with sets := st.sets.set set_index r.1
                global_counter := r.2.1
                total_cycles := st.total_cycles + r.2.2 }

/-- `CacheSimulator::processStore(set_index, tag)`. -/
def processStore (cfg : CacheConfig) (st : SimState) (set_index tag : Nat) : SimState :=
  let st := { st with total_stores := st.total_stores + 1,
                      total_cycles := st.total_cycles + 1 }
  let blocks := st.sets.getD set_index []
  match findHitIdx blocks tag with
  | some i =>
      let b := blocks.getD i CacheBlock.init
      let b' := if !cfg.write_through
                then { b with lru_count := st.global_counter + 1, dirty := true }
                else { b with lru_count := st.global_counter + 1 }
      { st with store_hits := st.store_hits + 1
                global_counter := st.global_counter + 1
                sets := st.sets.set set_index (blocks.set i b')
                total_cycles := if !cfg.write_through then st.total_cycles
                                else st.total_cycles + 100 }
  | none =>
      let st := { st with store_misses := st.store_misses + 1 }
      if cfg.write_allocate then
        let st := { st with total_cycles := st.total_cycles + 100 * (cfg.block_size / 4) }
        let r := allocateBlock cfg blocks tag st.global_counter
        let nb := r.1
        let st := { st with sets := st.sets.set set_index nb
                            global_counter := r.2.1
                            total_cycles := st.total_cycles + r.2.2 }
        if !cfg.write_through then
          match findHitIdx nb tag with
          | some i =>
              let b := nb.getD i CacheBlock.init
              { st with sets := st.sets.set set_index (nb.set i { b with dirty := true }) }
          | none => st
        else
          { st with total_cycles := st.total_cycles + 100 }
      else
        { st with total_cycles := st.total_cycles + 100 }

/-- The set-index field extracted by `processAccess`:
`(address >> block_bits) & ((1 << set_bits) - 1)`. -/
def decodeSetIndex (set_bits block_bits address : Nat) : Nat :=
  (address >>> block_bits) &&& ((1 <<< set_bits) - 1)

/-- The tag field extracted by `processAccess`:
`address >> (set_bits + block_bits)`. -/
def decodeTag (set_bits block_bits address : Nat) : Nat :=
  address >>> (set_bits + block_bits)

/-- The block-offset field of the spec's AddressDecoder contract
(`address & (2^blockOffsetBits - 1)`; unused by the policy engine). -/
def decodeBlockOffset (block_bits address : Nat) : Nat :=
  address &&& ((1 <<< block_bits) - 1)

/-- `CacheSimulator::processAccess(operation, address)`. -/
def processAccess (cfg : CacheConfig) (st : SimState) (operation : Char)
    (address : Nat) : SimState :=
  let set_index := decodeSetIndex cfg.set_bits cfg.block_bits address
  let tag := decodeTag cfg.set_bits cfg.block_bits address
  if operation = 'l' then processLoad cfg st set_index tag
  else processStore cfg st set_index tag

/-- The trace-replay loop of `main`: fold `processAccess` over the records. -/
def runTrace (cfg : CacheConfig) (trace : List (Char × Nat)) : SimState :=
  trace.foldl (fun st r => processAccess cfg st r.1 r.2) (initState cfg)

/-- Hit predicate: the scan of `processLoad`/`processStore` finds a valid
block with the given tag. -/
def isHit (blocks : List CacheBlock) (tag : Nat) : Bool :=
  (findHitIdx blocks tag).isSome

/-- Number of valid blocks in a set. -/
def countValid (blocks : List CacheBlock) : Nat :=
  blocks.countP (fun b => b.valid)

/-- No two valid blocks of a set hold the same tag. -/
def noDupTags (blocks : List CacheBlock) : Prop :=
  ∀ i j, i < blocks.length → j < blocks.length → i ≠ j →
    (blocks.getD i CacheBlock.init).valid = true →
    (blocks.getD j CacheBlock.init).valid = true →
    (blocks.getD i CacheBlock.init).tag ≠ (blocks.getD j CacheBlock.init).tag

/-- The two bookkeeping identities of the Statistics component. -/
def statsConsistent (st : SimState) : Prop :=
  st.total_loads = st.load_hits + st.load_misses ∧
  st.total_stores = st.store_hits + st.store_misses

/-- Pointwise order on the seven statistics counters. -/
def countersLE (s t : SimState) : Prop :=
  s.total_loads ≤ t.total_loads ∧ s.total_stores ≤ t.total_stores ∧
  s.load_hits ≤ t.load_hits ∧ s.load_misses ≤ t.load_misses ∧
  s.store_hits ≤ t.store_hits ∧ s.store_misses ≤ t.store_misses ∧
  s.total_cycles ≤ t.total_cycles

/-- Every block of every set is clean. -/
def allClean (st : SimState) : Prop :=
  ∀ s ∈ st.sets, ∀ b ∈ s, b.dirty = false

/-- The block in slot `i` of set `si`. -/
def getBlock (st : SimState) (si i : Nat) : CacheBlock :=
  (st.sets.getD si []).getD i CacheBlock.init

/-- Structural well-formedness of the simulator state: `num_sets` sets of
`num_blocks_per_set` blocks each, with no duplicated resident tag. -/
def SetsWF (cfg : CacheConfig) (st : SimState) : Prop :=
  st.sets.length = cfg.num_sets ∧
  ∀ s ∈ st.sets, s.length = cfg.num_blocks_per_set ∧ noDupTags s

/-- Pointwise persistence of the valid bits of one set together with
growth of its valid count. -/
def ValidMono (blocks nb : List CacheBlock) : Prop :=
  (∀ i, (blocks.getD i CacheBlock.init).valid = true →
    (nb.getD i CacheBlock.init).valid = true) ∧
  countValid blocks ≤ countValid nb

/-! ## Theorems -/

/-- Enough fuel makes `log2Fuel` agree with the mathematical `Nat.log2`. -/
theorem log2Fuel_eq (fuel : Nat) : ∀ n, n ≤ fuel → log2Fuel fuel n = Nat.log2 n := by
  induction fuel with
  | zero =>
      intro n h
      have hn : n = 0 := Nat.le_zero.mp h
      subst hn
      rw [Nat.log2]
      rfl
  | succ fuel ih =>
      intro n h
      rw [Nat.log2]
      unfold log2Fuel
      by_cases h2 : 2 ≤ n
      · rw [if_pos h2, if_pos h2, ih (n / 2) (by omega)]
      · rw [if_neg h2, if_neg h2]

/-- The geometry fields use the integer binary logarithm. -/
theorem log2i_eq_log2 (n : Nat) : log2i n = Nat.log2 n :=
  log2Fuel_eq n n (Nat.le_refl n)

/-- C3: with numSets=4, associativity=1, blockSizeBytes=16, the trace
`load 0x00`, `load 0x40`, `load 0x00` from the empty cache gives
totalLoads=3, loadHits=0, loadMisses=3 and totalCycles=1203, for every
choice of the write and eviction policies (loads never consult them on
this trace). -/
theorem conflict_trace_stats : ∀ wa wt lru : Bool,
    (runTrace ⟨4, 1, 16, wa, wt, lru⟩ [('l', 0x00), ('l', 0x40), ('l', 0x00)]).total_loads = 3 ∧
    (runTrace ⟨4, 1, 16, wa, wt, lru⟩ [('l', 0x00), ('l', 0x40), ('l', 0x00)]).load_hits = 0 ∧
    (runTrace ⟨4, 1, 16, wa, wt, lru⟩ [('l', 0x00), ('l', 0x40), ('l', 0x00)]).load_misses = 3 ∧
    (runTrace ⟨4, 1, 16, wa, wt, lru⟩ [('l', 0x00), ('l', 0x40), ('l', 0x00)]).total_cycles = 1203 := by
  decide

/-- C1: with the FIFO configuration (num_sets=1, associativity=2,
block_size=4), installing tag 0 then tag 1, hitting tag 0, and then
allocating tag 2 leaves tag 0 resident and replaces tag 1: the hit on
tag 0 redirected the victim choice to the later-installed block, so the
code does not evict the earliest-installed block as true FIFO would
(its two eviction branches run the same hit-refreshed minimum scan). -/
theorem fifo_victim_follows_hits :
    (runTrace ⟨1, 2, 4, true, true, false⟩
      [('l', 0x0), ('l', 0x4), ('l', 0x0), ('l', 0x8)]).sets =
      [[⟨true, false, 0, 3⟩, ⟨true, false, 2, 4⟩]] := by
  decide

/-- C2 counterexample: under no-write-allocate (with write-through), a
store to address 0 misses and the immediately repeated store to the same
address misses again — the first miss never touches the cache. -/
theorem store_repeat_after_miss_misses_again :
    (runTrace ⟨1, 1, 4, false, true, true⟩ [('s', 0), ('s', 0)]).store_hits = 0 ∧
    (runTrace ⟨1, 1, 4, false, true, true⟩ [('s', 0), ('s', 0)]).store_misses = 2 := by
  decide

/-- C5: decomposing a 32-bit address into the code's tag and set-index
fields plus the block-offset field and reassembling by shifts and ors
returns the original address. -/
theorem decode_reassemble (sb bb address : Nat)
    (haddr : address < 2 ^ 32) (hbits : sb + bb ≤ 32) :
    (decodeTag sb bb address <<< (sb + bb)) |||
      (decodeSetIndex sb bb address <<< bb) |||
      decodeBlockOffset bb address = address := by
  apply Nat.eq_of_testBit_eq
  intro k
  simp only [decodeTag, decodeSetIndex, decodeBlockOffset, Nat.testBit_or,
    Nat.testBit_shiftLeft, Nat.testBit_shiftRight, Nat.testBit_land,
    Nat.one_shiftLeft, Nat.testBit_two_pow_sub_one]
  rcases Nat.lt_or_ge k bb with h1 | h1
  · have d1 : ¬(sb + bb ≤ k) := by omega
    have d2 : ¬(bb ≤ k) := by omega
    simp [d1, d2, h1]
  · rcases Nat.lt_or_ge k (sb + bb) with h2 | h2
    · have d1 : ¬(sb + bb ≤ k) := by omega
      have e1 : bb + (k - bb) = k := by omega
      have d3 : k - bb < sb := by omega
      have d4 : ¬(k < bb) := by omega
      simp [d1, h1, e1, d3, d4]
    · have e1 : sb + bb + (k - (sb + bb)) = k := by omega
      have e2 : bb + (k - bb) = k := by omega
      have d3 : ¬(k - bb < sb) := by omega
      have d4 : ¬(k < bb) := by omega
      simp [h1, h2, e1, e2, d3, d4]

/-- C5 witness: the roundtrip at the concrete address 0x12345678 with
setIndexBits=2, blockOffsetBits=4. -/
theorem decode_reassemble_witness :
    (0x12345678 : Nat) < 2 ^ 32 ∧ (2 : Nat) + 4 ≤ 32 ∧
    (decodeTag 2 4 0x12345678 <<< (2 + 4)) |||
      (decodeSetIndex 2 4 0x12345678 <<< 4) |||
      decodeBlockOffset 4 0x12345678 = 0x12345678 :=
  ⟨by decide, by decide, decode_reassemble 2 4 0x12345678 (by decide) (by decide)⟩

/-- The victim scan never leaves the set: its result is below any bound
that dominates the running candidate and all remaining indices. -/
theorem scanMinLRU_lt (blocks : List CacheBlock) :
    ∀ i best n m, best < n → i + blocks.length ≤ n →
      scanMinLRU blocks i best m < n := by
  induction blocks with
  | nil =>
      intro i best n m hb _
      simpa [scanMinLRU] using hb
  | cons b rest ih =>
      intro i best n m hb hlen
      simp only [List.length_cons] at hlen
      unfold scanMinLRU
      by_cases h : b.lru_count < m
      · rw [if_pos h]
        exact ih (i + 1) i n b.lru_count (by omega) (by omega)
      · rw [if_neg h]
        exact ih (i + 1) best n m hb (by omega)

/-- The victim index is a real slot of a nonempty set. -/
theorem evictIndex_lt (lru : Bool) (blocks : List CacheBlock) (h : blocks ≠ []) :
    evictIndex lru blocks < blocks.length := by
  cases blocks with
  | nil => exact absurd rfl h
  | cons b rest =>
      unfold evictIndex
      cases lru <;>
        simpa using scanMinLRU_lt rest 1 0 (rest.length + 1) b.lru_count
          (by omega) (by omega)

/-- C6: under no-write-allocate, a store miss only bumps totalStores,
storeMisses and totalCycles (by exactly 101 = 1 base + 100 direct
write); the sets and the global recency counter are untouched. -/
theorem store_miss_write_around (cfg : CacheConfig) (st : SimState) (si tag : Nat)
    (hwa : cfg.write_allocate = false)
    (hmiss : findHitIdx (st.sets.getD si []) tag = none) :
    processStore cfg st si tag =
      { st with total_stores := st.total_stores + 1
                store_misses := st.store_misses + 1
                total_cycles := st.total_cycles + 101 } := by
  cases st with
  | mk sets gc tl ts lh lm sh sm tc =>
      simp only at hmiss
      unfold processStore
      simp only [hmiss, hwa, Bool.false_eq_true, if_false, SimState.mk.injEq,
        true_and, and_true]

/-- C6 witness: a concrete write-around store miss. -/
theorem store_miss_write_around_witness :
    (⟨1, 1, 4, false, true, true⟩ : CacheConfig).write_allocate = false ∧
    findHitIdx ((initState ⟨1, 1, 4, false, true, true⟩).sets.getD 0 []) 3 = none ∧
    processStore ⟨1, 1, 4, false, true, true⟩ (initState ⟨1, 1, 4, false, true, true⟩) 0 3 =
      { initState ⟨1, 1, 4, false, true, true⟩ with
          total_stores := (initState ⟨1, 1, 4, false, true, true⟩).total_stores + 1
          store_misses := (initState ⟨1, 1, 4, false, true, true⟩).store_misses + 1
          total_cycles := (initState ⟨1, 1, 4, false, true, true⟩).total_cycles + 101 } :=
  ⟨by decide, by decide,
    store_miss_write_around ⟨1, 1, 4, false, true, true⟩ (initState ⟨1, 1, 4, false, true, true⟩)
      0 3 (by decide) (by decide)⟩

/-- C7: allocating into a full set defers to the eviction path: the
policy picks exactly one in-range victim slot, the dirty write-back cost
is accrued exactly when the victim is dirty and the cache is write-back,
and afterwards the victim slot holds the new tag, valid, clean and
stamped with the incremented global counter. -/
theorem allocate_into_full_set (cfg : CacheConfig) (blocks : List CacheBlock)
    (tag gc : Nat) (hne : blocks ≠ []) (hfull : ∀ b ∈ blocks, b.valid = true) :
    evictIndex cfg.lru_eviction blocks < blocks.length ∧
    allocateBlock cfg blocks tag gc =
      (blocks.set (evictIndex cfg.lru_eviction blocks) ⟨true, false, tag, gc + 1⟩, gc + 1,
        if (blocks.getD (evictIndex cfg.lru_eviction blocks) CacheBlock.init).dirty
            && !cfg.write_through
        then 100 * (cfg.block_size / 4) else 0) ∧
    (allocateBlock cfg blocks tag gc).1.getD (evictIndex cfg.lru_eviction blocks)
        CacheBlock.init = ⟨true, false, tag, gc + 1⟩ := by
  have hlt : evictIndex cfg.lru_eviction blocks < blocks.length :=
    evictIndex_lt cfg.lru_eviction blocks hne
  have hnone : blocks.findIdx? (fun b => !b.valid) = none :=
    List.findIdx?_eq_none_iff.mpr (fun x hx => by simp [hfull x hx])
  have halloc : allocateBlock cfg blocks tag gc = evictBlock cfg blocks tag gc := by
    unfold allocateBlock
    rw [hnone]
  refine ⟨hlt, by rw [halloc]; rfl, ?_⟩
  rw [halloc]
  unfold evictBlock
  simp only [List.getD_eq_getElem?_getD, List.getElem?_set_self hlt, Option.getD_some]

/-- Reading back the slot just written. -/
theorem getD_set_eq {α : Type} (l : List α) (k : Nat) (b d : α) (h : k < l.length) :
    (l.set k b).getD k d = b := by
  simp [List.getD_eq_getElem?_getD, List.getElem?_set_self h]

/-- Reading a slot other than the one written. -/
theorem getD_set_ne {α : Type} (l : List α) (k j : Nat) (b d : α) (h : k ≠ j) :
    (l.set k b).getD j d = l.getD j d := by
  by_cases hk : k < l.length
  · simp [List.getD_eq_getElem?_getD, List.getElem?_set_ne h]
  · rw [List.set_eq_of_length_le (by omega)]

/-- An in-range `getD` is a member of the list. -/
theorem getD_mem_of_lt {α : Type} (l : List α) (n : Nat) (d : α) (h : n < l.length) :
    l.getD n d ∈ l := by
  rw [List.getD_eq_getElem?_getD, List.getElem?_eq_getElem h]
  exact List.getElem_mem h

/-- A pointwise property of all sets survives overwriting one set. -/
theorem allSets_set {P : List CacheBlock → Prop} (sets : List (List CacheBlock)) (si : Nat)
    (nb : List CacheBlock) (hP : ∀ s ∈ sets, P s) (hnb : P nb) :
    ∀ s ∈ sets.set si nb, P s := by
  intro s hs
  rcases List.mem_or_eq_of_mem_set hs with h | h
  · exact hP s h
  · rw [h]; exact hnb

/-- What a successful hit scan guarantees about the found index. -/
theorem findHitIdx_some (blocks : List CacheBlock) (tag i : Nat)
    (h : findHitIdx blocks tag = some i) :
    i < blocks.length ∧ (blocks.getD i CacheBlock.init).valid = true ∧
      (blocks.getD i CacheBlock.init).tag = tag := by
  unfold findHitIdx at h
  obtain ⟨hi, hp, -⟩ := List.findIdx?_eq_some_iff_getElem.mp h
  rw [Bool.and_eq_true, beq_iff_eq] at hp
  have hgd : blocks.getD i CacheBlock.init = blocks[i] := by
    rw [List.getD_eq_getElem?_getD, List.getElem?_eq_getElem hi]
    rfl
  rw [hgd]
  exact ⟨hi, hp.1, hp.2⟩

/-- What a failed hit scan says about every slot. -/
theorem findHitIdx_none (blocks : List CacheBlock) (tag : Nat)
    (h : findHitIdx blocks tag = none) :
    ∀ k, k < blocks.length → (blocks.getD k CacheBlock.init).valid = true →
      (blocks.getD k CacheBlock.init).tag ≠ tag := by
  unfold findHitIdx at h
  intro k hk hv ht
  have hmem := getD_mem_of_lt blocks k CacheBlock.init hk
  have := List.findIdx?_eq_none_iff.mp h _ hmem
  rw [hv, ht] at this
  simp at this

/-- A slot that holds a valid block with the tag makes the hit scan succeed. -/
theorem isHit_of_exists (blocks : List CacheBlock) (tag : Nat)
    (h : ∃ k, k < blocks.length ∧ (blocks.getD k CacheBlock.init).valid = true ∧
          (blocks.getD k CacheBlock.init).tag = tag) :
    isHit blocks tag = true := by
  obtain ⟨k, hk, hv, ht⟩ := h
  unfold isHit findHitIdx
  rw [List.findIdx?_isSome]
  refine List.any_eq_true.mpr ⟨blocks.getD k CacheBlock.init, getD_mem_of_lt _ _ _ hk, ?_⟩
  rw [Bool.and_eq_true, beq_iff_eq]
  exact ⟨hv, ht⟩

/-- Both branches of `allocateBlock` overwrite one in-range slot with the
freshly stamped clean block carrying the new tag, and increment the
global counter. -/
theorem allocateBlock_shape (cfg : CacheConfig) (blocks : List CacheBlock)
    (tag gc : Nat) (hne : blocks ≠ []) :
    ∃ k c, k < blocks.length ∧
      allocateBlock cfg blocks tag gc =
        (blocks.set k ⟨true, false, tag, gc + 1⟩, gc + 1, c) := by
  unfold allocateBlock
  cases hfi : blocks.findIdx? (fun b => !b.valid) with
  | some i =>
      obtain ⟨hi, -, -⟩ := List.findIdx?_eq_some_iff_getElem.mp hfi
      exact ⟨i, 0, hi, rfl⟩
  | none =>
      exact ⟨evictIndex cfg.lru_eviction blocks,
        (if (blocks.getD (evictIndex cfg.lru_eviction blocks) CacheBlock.init).dirty
            && !cfg.write_through then 100 * (cfg.block_size / 4) else 0),
        evictIndex_lt cfg.lru_eviction blocks hne, rfl⟩

/-- After an allocation the set hits on the allocated tag. -/
theorem allocateBlock_isHit (cfg : CacheConfig) (blocks : List CacheBlock)
    (tag gc : Nat) (hne : blocks ≠ []) :
    isHit (allocateBlock cfg blocks tag gc).1 tag = true := by
  obtain ⟨k, c, hk, heq⟩ := allocateBlock_shape cfg blocks tag gc hne
  rw [heq]
  exact isHit_of_exists _ _ ⟨k, by simpa using hk,
    by rw [getD_set_eq _ _ _ _ (by simpa using hk)], by rw [getD_set_eq _ _ _ _ (by simpa using hk)]⟩

/-- C7 witness: a concrete full two-way set with a dirty victim under
write-back. -/
theorem allocate_into_full_set_witness :
    ([⟨true, false, 1, 5⟩, ⟨true, true, 2, 3⟩] : List CacheBlock) ≠ [] ∧
    (∀ b ∈ ([⟨true, false, 1, 5⟩, ⟨true, true, 2, 3⟩] : List CacheBlock), b.valid = true) ∧
    (evictIndex (⟨1, 2, 4, true, false, true⟩ : CacheConfig).lru_eviction
        [⟨true, false, 1, 5⟩, ⟨true, true, 2, 3⟩] <
      ([⟨true, false, 1, 5⟩, ⟨true, true, 2, 3⟩] : List CacheBlock).length ∧
    allocateBlock ⟨1, 2, 4, true, false, true⟩ [⟨true, false, 1, 5⟩, ⟨true, true, 2, 3⟩] 7 9 =
      (([⟨true, false, 1, 5⟩, ⟨true, true, 2, 3⟩] : List CacheBlock).set
          (evictIndex (⟨1, 2, 4, true, false, true⟩ : CacheConfig).lru_eviction
            [⟨true, false, 1, 5⟩, ⟨true, true, 2, 3⟩]) ⟨true, false, 7, 9 + 1⟩, 9 + 1,
        if (([⟨true, false, 1, 5⟩, ⟨true, true, 2, 3⟩] : List CacheBlock).getD
              (evictIndex (⟨1, 2, 4, true, false, true⟩ : CacheConfig).lru_eviction
                [⟨true, false, 1, 5⟩, ⟨true, true, 2, 3⟩]) CacheBlock.init).dirty
            && !(⟨1, 2, 4, true, false, true⟩ : CacheConfig).write_through
        then 100 * ((⟨1, 2, 4, true, false, true⟩ : CacheConfig).block_size / 4) else 0) ∧
    (allocateBlock ⟨1, 2, 4, true, false, true⟩ [⟨true, false, 1, 5⟩, ⟨true, true, 2, 3⟩] 7 9).1.getD
        (evictIndex (⟨1, 2, 4, true, false, true⟩ : CacheConfig).lru_eviction
          [⟨true, false, 1, 5⟩, ⟨true, true, 2, 3⟩]) CacheBlock.init = ⟨true, false, 7, 9 + 1⟩) :=
  ⟨by decide, by decide,
    allocate_into_full_set ⟨1, 2, 4, true, false, true⟩
      [⟨true, false, 1, 5⟩, ⟨true, true, 2, 3⟩] 7 9 (by decide) (by decide)⟩

/-- After a load miss the touched set is the allocation result. -/
theorem processLoad_miss_sets (cfg : CacheConfig) (st : SimState) (si tag : Nat)
    (hmiss : findHitIdx (st.sets.getD si []) tag = none) :
    (processLoad cfg st si tag).sets =
      st.sets.set si (allocateBlock cfg (st.sets.getD si []) tag st.global_counter).1 := by
  cases st with
  | mk sets gc tl ts lh lm sh sm tc =>
      simp only at hmiss
      unfold processLoad
      simp only [hmiss]

/-- After a load miss into a real, nonempty set, the missed tag is resident. -/
theorem processLoad_miss_isHit (cfg : CacheConfig) (st : SimState) (si tag : Nat)
    (hsi : si < st.sets.length) (hne : st.sets.getD si [] ≠ [])
    (hmiss : findHitIdx (st.sets.getD si []) tag = none) :
    isHit ((processLoad cfg st si tag).sets.getD si []) tag = true := by
  rw [processLoad_miss_sets cfg st si tag hmiss, getD_set_eq _ _ _ _ hsi]
  exact allocateBlock_isHit _ _ _ _ hne

/-- After a write-allocate store miss into a real, nonempty set, the
missed tag is resident (the optional dirty marking keeps it valid). -/
theorem processStore_miss_isHit (cfg : CacheConfig) (st : SimState) (si tag : Nat)
    (hwa : cfg.write_allocate = true)
    (hsi : si < st.sets.length) (hne : st.sets.getD si [] ≠ [])
    (hmiss : findHitIdx (st.sets.getD si []) tag = none) :
    isHit ((processStore cfg st si tag).sets.getD si []) tag = true := by
  have hAll : isHit (allocateBlock cfg (st.sets.getD si []) tag st.global_counter).1 tag
      = true := allocateBlock_isHit _ _ _ _ hne
  cases st with
  | mk sets gc tl ts lh lm sh sm tc =>
      simp only at hmiss hsi hne hAll
      unfold processStore
      simp only [hmiss, hwa, if_true]
      by_cases hwt : cfg.write_through
      · simp only [hwt, Bool.not_true, Bool.false_eq_true, if_false]
        rw [getD_set_eq _ _ _ _ hsi]
        exact hAll
      · have hwt' : cfg.write_through = false := by
          cases h : cfg.write_through
          · rfl
          · exact absurd h hwt
        simp only [hwt', Bool.not_false, if_true]
        cases hfi : findHitIdx (allocateBlock cfg (sets.getD si []) tag gc).1 tag with
        | none =>
            unfold isHit at hAll
            rw [hfi] at hAll
            simp at hAll
        | some k =>
            obtain ⟨hk, hv, ht⟩ := findHitIdx_some _ _ _ hfi
            simp only
            rw [getD_set_eq _ _ _ _ (by simpa using hsi)]
            refine isHit_of_exists _ _ ⟨k, by simpa using hk, ?_, ?_⟩ <;>
              rw [getD_set_eq _ _ _ _ hk]
            · exact hv
            · exact ht

/-- A hit load bumps loadHits by one. -/
theorem processLoad_hit_counts (cfg : CacheConfig) (st : SimState) (si tag : Nat)
    (hhit : isHit (st.sets.getD si []) tag = true) :
    (processLoad cfg st si tag).load_hits = st.load_hits + 1 := by
  cases st with
  | mk sets gc tl ts lh lm sh sm tc =>
      unfold isHit at hhit
      simp only at hhit
      unfold processLoad
      cases hfi : findHitIdx (sets.getD si []) tag with
      | none => rw [hfi] at hhit; simp at hhit
      | some i => simp only [hfi]

/-- A hit store bumps storeHits by one. -/
theorem processStore_hit_counts (cfg : CacheConfig) (st : SimState) (si tag : Nat)
    (hhit : isHit (st.sets.getD si []) tag = true) :
    (processStore cfg st si tag).store_hits = st.store_hits + 1 := by
  cases st with
  | mk sets gc tl ts lh lm sh sm tc =>
      unfold isHit at hhit
      simp only at hhit
      unfold processStore
      cases hfi : findHitIdx (sets.getD si []) tag with
      | none => rw [hfi] at hhit; simp at hhit
      | some i => simp only [hfi]

/-- C2 (amended): if an access misses and that miss allocates — i.e. it
is a load, or a store under write-allocate — then the missed tag is
resident afterwards and an immediately repeated access to the same
address hits, whether it is a load or a store. -/
theorem repeat_after_allocating_miss_hits (cfg : CacheConfig) (st : SimState)
    (op : Char) (addr : Nat)
    (hsi : decodeSetIndex cfg.set_bits cfg.block_bits addr < st.sets.length)
    (hne : st.sets.getD (decodeSetIndex cfg.set_bits cfg.block_bits addr) [] ≠ [])
    (hmiss : isHit (st.sets.getD (decodeSetIndex cfg.set_bits cfg.block_bits addr) [])
        (decodeTag cfg.set_bits cfg.block_bits addr) = false)
    (halloc : op = 'l' ∨ cfg.write_allocate = true) :
    isHit ((processAccess cfg st op addr).sets.getD
        (decodeSetIndex cfg.set_bits cfg.block_bits addr) [])
      (decodeTag cfg.set_bits cfg.block_bits addr) = true ∧
    (processAccess cfg (processAccess cfg st op addr) 'l' addr).load_hits =
      (processAccess cfg st op addr).load_hits + 1 ∧
    (processAccess cfg (processAccess cfg st op addr) 's' addr).store_hits =
      (processAccess cfg st op addr).store_hits + 1 := by
  have hmiss' : findHitIdx
      (st.sets.getD (decodeSetIndex cfg.set_bits cfg.block_bits addr) [])
      (decodeTag cfg.set_bits cfg.block_bits addr) = none := by
    unfold isHit at hmiss
    cases h : findHitIdx (st.sets.getD (decodeSetIndex cfg.set_bits cfg.block_bits addr) [])
        (decodeTag cfg.set_bits cfg.block_bits addr)
    · rfl
    · rw [h] at hmiss; simp at hmiss
  have hP1 : isHit ((processAccess cfg st op addr).sets.getD
      (decodeSetIndex cfg.set_bits cfg.block_bits addr) [])
      (decodeTag cfg.set_bits cfg.block_bits addr) = true := by
    unfold processAccess
    by_cases hop : op = 'l'
    · simp only [hop, if_true]
      exact processLoad_miss_isHit cfg st _ _ hsi hne hmiss'
    · simp only [hop, if_false]
      rcases halloc with h | hwa
      · exact absurd h hop
      · exact processStore_miss_isHit cfg st _ _ hwa hsi hne hmiss'
  refine ⟨hP1, ?_, ?_⟩
  · conv_lhs => unfold processAccess
    simp only [if_pos rfl]
    exact processLoad_hit_counts cfg _ _ _ hP1
  · conv_lhs => unfold processAccess
    have hsl : ¬(('s' : Char) = 'l') := by decide
    simp only [hsl, if_false]
    exact processStore_hit_counts cfg _ _ _ hP1

/-- C2 (amended) witness: a concrete load miss on the empty cache whose
repetition hits. -/
theorem repeat_after_allocating_miss_hits_witness :
    decodeSetIndex (⟨4, 1, 16, true, true, true⟩ : CacheConfig).set_bits
        (⟨4, 1, 16, true, true, true⟩ : CacheConfig).block_bits 0 <
      (initState ⟨4, 1, 16, true, true, true⟩).sets.length ∧
    (initState ⟨4, 1, 16, true, true, true⟩).sets.getD
        (decodeSetIndex (⟨4, 1, 16, true, true, true⟩ : CacheConfig).set_bits
          (⟨4, 1, 16, true, true, true⟩ : CacheConfig).block_bits 0) [] ≠ [] ∧
    isHit ((initState ⟨4, 1, 16, true, true, true⟩).sets.getD
        (decodeSetIndex (⟨4, 1, 16, true, true, true⟩ : CacheConfig).set_bits
          (⟨4, 1, 16, true, true, true⟩ : CacheConfig).block_bits 0) [])
      (decodeTag (⟨4, 1, 16, true, true, true⟩ : CacheConfig).set_bits
        (⟨4, 1, 16, true, true, true⟩ : CacheConfig).block_bits 0) = false ∧
    (processAccess ⟨4, 1, 16, true, true, true⟩
        (processAccess ⟨4, 1, 16, true, true, true⟩
          (initState ⟨4, 1, 16, true, true, true⟩) 'l' 0) 'l' 0).load_hits =
      (processAccess ⟨4, 1, 16, true, true, true⟩
        (initState ⟨4, 1, 16, true, true, true⟩) 'l' 0).load_hits + 1 :=
  ⟨by decide, by decide, by decide,
    (repeat_after_allocating_miss_hits ⟨4, 1, 16, true, true, true⟩
      (initState ⟨4, 1, 16, true, true, true⟩) 'l' 0 (by decide) (by decide) (by decide)
      (Or.inl rfl)).2.1⟩

/-- One load bumps totalLoads and leaves the store counters alone. -/
theorem processLoad_fixed (cfg : CacheConfig) (st : SimState) (si tag : Nat) :
    (processLoad cfg st si tag).total_loads = st.total_loads + 1 ∧
    (processLoad cfg st si tag).total_stores = st.total_stores ∧
    (processLoad cfg st si tag).store_hits = st.store_hits ∧
    (processLoad cfg st si tag).store_misses = st.store_misses := by
  cases st with
  | mk sets gc tl ts lh lm sh sm tc =>
      unfold processLoad
      cases hfi : findHitIdx (sets.getD si []) tag <;> simp only [hfi] <;> repeat' split
      all_goals try simp only []
      all_goals refine ⟨?_, ?_, ?_, ?_⟩ <;> trivial

/-- One load bumps exactly one of loadHits/loadMisses. -/
theorem processLoad_hitmiss (cfg : CacheConfig) (st : SimState) (si tag : Nat) :
    (processLoad cfg st si tag).load_hits = st.load_hits + 1 ∧
        (processLoad cfg st si tag).load_misses = st.load_misses ∨
      (processLoad cfg st si tag).load_hits = st.load_hits ∧
        (processLoad cfg st si tag).load_misses = st.load_misses + 1 := by
  cases st with
  | mk sets gc tl ts lh lm sh sm tc =>
      unfold processLoad
      cases hfi : findHitIdx (sets.getD si []) tag <;> simp only [hfi] <;> repeat' split
      all_goals try simp only []
      all_goals first
        | (refine Or.inl ⟨?_, ?_⟩ <;> trivial)
        | (refine Or.inr ⟨?_, ?_⟩ <;> trivial)

/-- One load never decreases totalCycles. -/
theorem processLoad_cycles (cfg : CacheConfig) (st : SimState) (si tag : Nat) :
    st.total_cycles ≤ (processLoad cfg st si tag).total_cycles := by
  cases st with
  | mk sets gc tl ts lh lm sh sm tc =>
      unfold processLoad
      cases hfi : findHitIdx (sets.getD si []) tag <;> simp only [hfi] <;> repeat' split
      all_goals try simp only []
      all_goals omega

/-- One store bumps totalStores and leaves the load counters alone. -/
theorem processStore_fixed (cfg : CacheConfig) (st : SimState) (si tag : Nat) :
    (processStore cfg st si tag).total_stores = st.total_stores + 1 ∧
    (processStore cfg st si tag).total_loads = st.total_loads ∧
    (processStore cfg st si tag).load_hits = st.load_hits ∧
    (processStore cfg st si tag).load_misses = st.load_misses := by
  cases st with
  | mk sets gc tl ts lh lm sh sm tc =>
      unfold processStore
      cases hfi : findHitIdx (sets.getD si []) tag <;> simp only [hfi] <;> repeat' split
      all_goals try simp only []
      all_goals refine ⟨?_, ?_, ?_, ?_⟩ <;> trivial

/-- One store bumps exactly one of storeHits/storeMisses. -/
theorem processStore_hitmiss (cfg : CacheConfig) (st : SimState) (si tag : Nat) :
    (processStore cfg st si tag).store_hits = st.store_hits + 1 ∧
        (processStore cfg st si tag).store_misses = st.store_misses ∨
      (processStore cfg st si tag).store_hits = st.store_hits ∧
        (processStore cfg st si tag).store_misses = st.store_misses + 1 := by
  cases st with
  | mk sets gc tl ts lh lm sh sm tc =>
      unfold processStore
      cases hfi : findHitIdx (sets.getD si []) tag <;> simp only [hfi] <;> repeat' split
      all_goals try simp only []
      all_goals first
        | (refine Or.inl ⟨?_, ?_⟩ <;> trivial)
        | (refine Or.inr ⟨?_, ?_⟩ <;> trivial)

/-- One store never decreases totalCycles. -/
theorem processStore_cycles (cfg : CacheConfig) (st : SimState) (si tag : Nat) :
    st.total_cycles ≤ (processStore cfg st si tag).total_cycles := by
  cases st with
  | mk sets gc tl ts lh lm sh sm tc =>
      unfold processStore
      cases hfi : findHitIdx (sets.getD si []) tag <;> simp only [hfi] <;> repeat' split
      all_goals try simp only []
      all_goals omega

/-- One access preserves the Statistics identities. -/
theorem processAccess_statsConsistent (cfg : CacheConfig) (st : SimState)
    (op : Char) (addr : Nat) (h : statsConsistent st) :
    statsConsistent (processAccess cfg st op addr) := by
  unfold processAccess
  obtain ⟨h1, h2⟩ := h
  by_cases hop : op = 'l'
  · simp only [hop, if_true]
    obtain ⟨e1, e2, e3, e4⟩ :=
      processLoad_fixed cfg st (decodeSetIndex cfg.set_bits cfg.block_bits addr)
        (decodeTag cfg.set_bits cfg.block_bits addr)
    have e5 := processLoad_hitmiss cfg st (decodeSetIndex cfg.set_bits cfg.block_bits addr)
        (decodeTag cfg.set_bits cfg.block_bits addr)
    constructor <;> rcases e5 with ⟨a, b⟩ | ⟨a, b⟩ <;> omega
  · simp only [hop, if_false]
    obtain ⟨e1, e2, e3, e4⟩ :=
      processStore_fixed cfg st (decodeSetIndex cfg.set_bits cfg.block_bits addr)
        (decodeTag cfg.set_bits cfg.block_bits addr)
    have e5 := processStore_hitmiss cfg st (decodeSetIndex cfg.set_bits cfg.block_bits addr)
        (decodeTag cfg.set_bits cfg.block_bits addr)
    constructor <;> rcases e5 with ⟨a, b⟩ | ⟨a, b⟩ <;> omega

/-- One access never decreases any of the seven counters. -/
theorem processAccess_countersLE (cfg : CacheConfig) (st : SimState)
    (op : Char) (addr : Nat) : countersLE st (processAccess cfg st op addr) := by
  unfold processAccess countersLE
  by_cases hop : op = 'l'
  · simp only [hop, if_true]
    obtain ⟨e1, e2, e3, e4⟩ :=
      processLoad_fixed cfg st (decodeSetIndex cfg.set_bits cfg.block_bits addr)
        (decodeTag cfg.set_bits cfg.block_bits addr)
    have e5 := processLoad_hitmiss cfg st (decodeSetIndex cfg.set_bits cfg.block_bits addr)
        (decodeTag cfg.set_bits cfg.block_bits addr)
    have e6 := processLoad_cycles cfg st (decodeSetIndex cfg.set_bits cfg.block_bits addr)
        (decodeTag cfg.set_bits cfg.block_bits addr)
    rcases e5 with ⟨a, b⟩ | ⟨a, b⟩ <;>
      exact ⟨by omega, by omega, by omega, by omega, by omega, by omega, e6⟩
  · simp only [hop, if_false]
    obtain ⟨e1, e2, e3, e4⟩ :=
      processStore_fixed cfg st (decodeSetIndex cfg.set_bits cfg.block_bits addr)
        (decodeTag cfg.set_bits cfg.block_bits addr)
    have e5 := processStore_hitmiss cfg st (decodeSetIndex cfg.set_bits cfg.block_bits addr)
        (decodeTag cfg.set_bits cfg.block_bits addr)
    have e6 := processStore_cycles cfg st (decodeSetIndex cfg.set_bits cfg.block_bits addr)
        (decodeTag cfg.set_bits cfg.block_bits addr)
    rcases e5 with ⟨a, b⟩ | ⟨a, b⟩ <;>
      exact ⟨by omega, by omega, by omega, by omega, by omega, by omega, e6⟩

/-- The Statistics identities hold after every prefix of every trace. -/
theorem runTrace_statsConsistent (cfg : CacheConfig) (trace : List (Char × Nat)) :
    statsConsistent (runTrace cfg trace) := by
  unfold runTrace
  suffices h : ∀ st, statsConsistent st →
      statsConsistent (trace.foldl (fun st r => processAccess cfg st r.1 r.2) st) by
    exact h (initState cfg) ⟨rfl, rfl⟩
  induction trace with
  | nil => intro st h; exact h
  | cons r rest ih =>
      intro st h
      exact ih _ (processAccess_statsConsistent cfg st r.1 r.2 h)

/-- C4: after every access of every trace, totalLoads = loadHits +
loadMisses and totalStores = storeHits + storeMisses, and a single
access from any state never decreases any of the seven counters. -/
theorem stats_identities_and_monotone (cfg : CacheConfig) (trace : List (Char × Nat))
    (st : SimState) (op : Char) (addr : Nat) :
    statsConsistent (runTrace cfg trace) ∧ countersLE st (processAccess cfg st op addr) :=
  ⟨runTrace_statsConsistent cfg trace, processAccess_countersLE cfg st op addr⟩

/-- The identity update is valid-monotone. -/
theorem validMono_refl (blocks : List CacheBlock) : ValidMono blocks blocks :=
  ⟨fun _ h => h, Nat.le_refl _⟩

/-- Valid-monotonicity composes. -/
theorem validMono_trans (a b c : List CacheBlock) (h1 : ValidMono a b)
    (h2 : ValidMono b c) : ValidMono a c :=
  ⟨fun i hv => h2.1 i (h1.1 i hv), Nat.le_trans h1.2 h2.2⟩

/-- Overwriting a slot with a block at least as valid never lowers the
valid count. -/
theorem countValid_set_le (blocks : List CacheBlock) (k : Nat) (b' : CacheBlock)
    (h : (blocks.getD k CacheBlock.init).valid = true → b'.valid = true) :
    countValid blocks ≤ countValid (blocks.set k b') := by
  induction blocks generalizing k with
  | nil => simp [countValid]
  | cons hd tl ih =>
      cases k with
      | zero =>
          simp only [List.getD_cons_zero] at h
          simp only [List.set_cons_zero, countValid, List.countP_cons]
          by_cases hv : hd.valid = true
          · rw [if_pos (by simpa using hv), if_pos (by simpa using h hv)]
          · rw [if_neg (by simpa using hv)]
            omega
      | succ k =>
          simp only [List.getD_cons_succ] at h
          simp only [List.set_cons_succ, countValid, List.countP_cons]
          have := ih k h
          simp only [countValid] at this
          omega

/-- A valid slot stays valid when another (or an at-least-as-valid) block
is written. -/
theorem valid_stays_set (blocks : List CacheBlock) (k : Nat) (b' : CacheBlock) (i : Nat)
    (h : (blocks.getD k CacheBlock.init).valid = true → b'.valid = true)
    (hv : (blocks.getD i CacheBlock.init).valid = true) :
    ((blocks.set k b').getD i CacheBlock.init).valid = true := by
  by_cases hk : k = i
  · subst hk
    by_cases hlen : k < blocks.length
    · rw [getD_set_eq _ _ _ _ hlen]
      exact h hv
    · rw [List.set_eq_of_length_le (by omega)]
      exact hv
  · rw [getD_set_ne _ _ _ _ _ hk]
    exact hv

/-- One slot write with a valid-preserving block is valid-monotone. -/
theorem validMono_set (blocks : List CacheBlock) (k : Nat) (b' : CacheBlock)
    (h : (blocks.getD k CacheBlock.init).valid = true → b'.valid = true) :
    ValidMono blocks (blocks.set k b') :=
  ⟨fun i hv => valid_stays_set blocks k b' i h hv, countValid_set_le blocks k b' h⟩

/-- Allocation (free slot or eviction) is valid-monotone. -/
theorem validMono_allocate (cfg : CacheConfig) (blocks : List CacheBlock) (tag gc : Nat) :
    ValidMono blocks (allocateBlock cfg blocks tag gc).1 := by
  by_cases hne : blocks = []
  · subst hne
    exact validMono_refl []
  · obtain ⟨k, c, hk, heq⟩ := allocateBlock_shape cfg blocks tag gc hne
    rw [heq]
    exact validMono_set blocks k _ (fun _ => rfl)

/-- Valid-monotonicity of one set lifts to the list of sets. -/
theorem sets_set_validMono (sets : List (List CacheBlock)) (siA : Nat)
    (nb : List CacheBlock) (h : ValidMono (sets.getD siA []) nb) (si : Nat) :
    ValidMono (sets.getD si []) ((sets.set siA nb).getD si []) := by
  by_cases hA : siA < sets.length
  · by_cases hsi : siA = si
    · subst hsi
      rw [getD_set_eq _ _ _ _ hA]
      exact h
    · rw [getD_set_ne _ _ _ _ _ hsi]
      exact validMono_refl _
  · rw [List.set_eq_of_length_le (by omega)]
    exact validMono_refl _

/-- Every branch of a load is valid-monotone on every set. -/
theorem processLoad_validMono (cfg : CacheConfig) (st : SimState) (siA tag si : Nat) :
    ValidMono (st.sets.getD si []) ((processLoad cfg st siA tag).sets.getD si []) := by
  cases st with
  | mk sets gc tl ts lh lm sh sm tc =>
      unfold processLoad
      cases hfi : findHitIdx (sets.getD siA []) tag with
      | some i =>
          simp only [hfi]
          exact sets_set_validMono sets siA _
            (validMono_set _ i _ (by intro hv; exact hv)) si
      | none =>
          simp only [hfi]
          exact sets_set_validMono sets siA _ (validMono_allocate cfg _ tag gc) si

/-- Every branch of a store is valid-monotone on every set. -/
theorem processStore_validMono (cfg : CacheConfig) (st : SimState) (siA tag si : Nat) :
    ValidMono (st.sets.getD si []) ((processStore cfg st siA tag).sets.getD si []) := by
  cases st with
  | mk sets gc tl ts lh lm sh sm tc =>
      unfold processStore
      cases hfi : findHitIdx (sets.getD siA []) tag with
      | some i =>
          simp only [hfi]
          exact sets_set_validMono sets siA _
            (validMono_set _ i _ (by intro hv; split <;> exact hv)) si
      | none =>
          simp only [hfi]
          by_cases hwa : cfg.write_allocate = true
          · simp only [hwa, if_true]
            by_cases hwt : cfg.write_through = true
            · simp only [hwt, Bool.not_true, Bool.false_eq_true, if_false]
              exact sets_set_validMono sets siA _ (validMono_allocate cfg _ tag gc) si
            · rw [Bool.not_eq_true] at hwt
              simp only [hwt, Bool.not_false, if_true]
              cases hfi2 : findHitIdx (allocateBlock cfg (sets.getD siA []) tag gc).1 tag with
              | some k =>
                  simp only [hfi2, List.set_set]
                  exact sets_set_validMono sets siA _
                    (validMono_trans _ _ _ (validMono_allocate cfg _ tag gc)
                      (validMono_set _ k _ (by intro hv; exact hv))) si
              | none =>
                  simp only [hfi2]
                  exact sets_set_validMono sets siA _ (validMono_allocate cfg _ tag gc) si
          · rw [Bool.not_eq_true] at hwa
            simp only [hwa, Bool.false_eq_true, if_false]
            exact validMono_refl _

/-- Every access is valid-monotone on every set. -/
theorem processAccess_validMono (cfg : CacheConfig) (st : SimState) (op : Char)
    (addr si : Nat) :
    ValidMono (st.sets.getD si []) ((processAccess cfg st op addr).sets.getD si []) := by
  unfold processAccess
  by_cases hop : op = 'l'
  · simp only [hop, if_true]
    exact processLoad_validMono cfg st _ _ si
  · simp only [hop, if_false]
    exact processStore_validMono cfg st _ _ si

/-- C10: a valid slot stays valid across any access (no operation clears
a valid bit; eviction overwrites in place), and the number of valid
blocks in every set never decreases. -/
theorem valid_persists (cfg : CacheConfig) (st : SimState) (op : Char)
    (addr si i : Nat) (hv : (getBlock st si i).valid = true) :
    (getBlock (processAccess cfg st op addr) si i).valid = true ∧
    countValid (st.sets.getD si []) ≤
      countValid ((processAccess cfg st op addr).sets.getD si []) :=
  ⟨(processAccess_validMono cfg st op addr si).1 i hv,
    (processAccess_validMono cfg st op addr si).2⟩

/-- C10 witness: the block loaded into set 0 slot 0 stays valid across a
conflicting store. -/
theorem valid_persists_witness :
    (getBlock (processAccess ⟨1, 1, 16, true, true, true⟩
        (initState ⟨1, 1, 16, true, true, true⟩) 'l' 0) 0 0).valid = true ∧
    ((getBlock (processAccess ⟨1, 1, 16, true, true, true⟩
        (processAccess ⟨1, 1, 16, true, true, true⟩
          (initState ⟨1, 1, 16, true, true, true⟩) 'l' 0) 's' 0x10) 0 0).valid = true ∧
      countValid ((processAccess ⟨1, 1, 16, true, true, true⟩
          (initState ⟨1, 1, 16, true, true, true⟩) 'l' 0).sets.getD 0 []) ≤
        countValid ((processAccess ⟨1, 1, 16, true, true, true⟩
            (processAccess ⟨1, 1, 16, true, true, true⟩
              (initState ⟨1, 1, 16, true, true, true⟩) 'l' 0) 's' 0x10).sets.getD 0 [])) :=
  ⟨by decide,
    valid_persists ⟨1, 1, 16, true, true, true⟩
      (processAccess ⟨1, 1, 16, true, true, true⟩
        (initState ⟨1, 1, 16, true, true, true⟩) 'l' 0) 's' 0x10 0 0 (by decide)⟩

/-- Every block of the (possibly out-of-range) set read by an access is
clean in an all-clean state. -/
theorem allClean_blocks (st : SimState) (h : allClean st) (si : Nat) :
    ∀ b ∈ st.sets.getD si [], b.dirty = false := by
  by_cases hsi : si < st.sets.length
  · exact h _ (getD_mem_of_lt _ _ _ hsi)
  · intro b hb
    rw [List.getD_eq_getElem?_getD, List.getElem?_eq_none (by omega)] at hb
    simp at hb

/-- Allocation writes only clean blocks. -/
theorem allocateBlock_clean (cfg : CacheConfig) (blocks : List CacheBlock) (tag gc : Nat)
    (h : ∀ b ∈ blocks, b.dirty = false) :
    ∀ b ∈ (allocateBlock cfg blocks tag gc).1, b.dirty = false := by
  by_cases hne : blocks = []
  · subst hne
    intro b hb
    have he : (allocateBlock cfg ([] : List CacheBlock) tag gc).1 = [] := by
      unfold allocateBlock evictBlock
      simp
    rw [he] at hb
    simp at hb
  · obtain ⟨k, c, hk, heq⟩ := allocateBlock_shape cfg blocks tag gc hne
    rw [heq]
    intro b hb
    rcases List.mem_or_eq_of_mem_set hb with hm | hm
    · exact h b hm
    · rw [hm]

/-- Under write-through the eviction path never charges a write-back. -/
theorem evictBlock_cost_write_through (cfg : CacheConfig)
    (hwt : cfg.write_through = true) (blocks : List CacheBlock) (tag gc : Nat) :
    (evictBlock cfg blocks tag gc).2.2 = 0 := by
  unfold evictBlock
  simp [hwt]

/-- A load keeps an all-clean cache all clean. -/
theorem processLoad_allClean (cfg : CacheConfig) (st : SimState) (siA tag : Nat)
    (h : allClean st) : allClean (processLoad cfg st siA tag) := by
  have hB := allClean_blocks st h siA
  cases st with
  | mk sets gc tl ts lh lm sh sm tc =>
      simp only at hB
      unfold processLoad
      cases hfi : findHitIdx (sets.getD siA []) tag with
      | some i =>
          simp only [hfi]
          intro s hs
          rcases List.mem_or_eq_of_mem_set hs with hm | hm
          · exact h s hm
          · rw [hm]
            intro b hb
            rcases List.mem_or_eq_of_mem_set hb with hm2 | hm2
            · exact hB b hm2
            · rw [hm2]
              exact hB ((sets.getD siA []).getD i CacheBlock.init)
                (getD_mem_of_lt _ _ _ (findHitIdx_some _ _ _ hfi).1)
      | none =>
          simp only [hfi]
          intro s hs
          rcases List.mem_or_eq_of_mem_set hs with hm | hm
          · exact h s hm
          · rw [hm]
            exact allocateBlock_clean cfg _ tag gc hB

/-- A store keeps an all-clean cache all clean when write-through. -/
theorem processStore_allClean (cfg : CacheConfig) (st : SimState) (siA tag : Nat)
    (hwt : cfg.write_through = true) (h : allClean st) :
    allClean (processStore cfg st siA tag) := by
  have hB := allClean_blocks st h siA
  cases st with
  | mk sets gc tl ts lh lm sh sm tc =>
      simp only at hB
      unfold processStore
      cases hfi : findHitIdx (sets.getD siA []) tag with
      | some i =>
          simp only [hfi, hwt, Bool.not_true, Bool.false_eq_true, if_false]
          intro s hs
          rcases List.mem_or_eq_of_mem_set hs with hm | hm
          · exact h s hm
          · rw [hm]
            intro b hb
            rcases List.mem_or_eq_of_mem_set hb with hm2 | hm2
            · exact hB b hm2
            · rw [hm2]
              exact hB ((sets.getD siA []).getD i CacheBlock.init)
                (getD_mem_of_lt _ _ _ (findHitIdx_some _ _ _ hfi).1)
      | none =>
          simp only [hfi, hwt, Bool.not_true, Bool.false_eq_true, if_false]
          by_cases hwa : cfg.write_allocate = true
          · simp only [hwa, if_true]
            intro s hs
            rcases List.mem_or_eq_of_mem_set hs with hm | hm
            · exact h s hm
            · rw [hm]
              exact allocateBlock_clean cfg _ tag gc hB
          · rw [Bool.not_eq_true] at hwa
            simp only [hwa, Bool.false_eq_true, if_false]
            exact fun s hs => h s hs

/-- The empty cache is all clean. -/
theorem initState_allClean (cfg : CacheConfig) : allClean (initState cfg) := by
  intro s hs
  have hs' := List.eq_of_mem_replicate hs
  subst hs'
  intro b hb
  have hb' := List.eq_of_mem_replicate hb
  rw [hb']
  rfl

/-- One access keeps an all-clean cache all clean when write-through. -/
theorem processAccess_allClean (cfg : CacheConfig) (st : SimState) (op : Char)
    (addr : Nat) (hwt : cfg.write_through = true) (h : allClean st) :
    allClean (processAccess cfg st op addr) := by
  unfold processAccess
  by_cases hop : op = 'l'
  · simp only [hop, if_true]
    exact processLoad_allClean cfg st _ _ h
  · simp only [hop, if_false]
    exact processStore_allClean cfg st _ _ hwt h

/-- Every state reached under write-through is all clean. -/
theorem runTrace_allClean (cfg : CacheConfig) (trace : List (Char × Nat))
    (hwt : cfg.write_through = true) : allClean (runTrace cfg trace) := by
  unfold runTrace
  suffices h : ∀ st, allClean st →
      allClean (trace.foldl (fun st r => processAccess cfg st r.1 r.2) st) by
    exact h (initState cfg) (initState_allClean cfg)
  induction trace with
  | nil => exact fun st h => h
  | cons r rest ih =>
      intro st h
      exact ih _ (processAccess_allClean cfg st r.1 r.2 hwt h)

/-- C9: under write-through no cache block is ever dirty after any
access, and the dirty-eviction write-back cost is never accrued. -/
theorem write_through_stays_clean (cfg : CacheConfig) (trace : List (Char × Nat))
    (hwt : cfg.write_through = true) :
    allClean (runTrace cfg trace) ∧
    ∀ blocks tag gc, (evictBlock cfg blocks tag gc).2.2 = 0 :=
  ⟨runTrace_allClean cfg trace hwt,
    fun blocks tag gc => evictBlock_cost_write_through cfg hwt blocks tag gc⟩

/-- C9 witness: a concrete write-through run stays clean and a concrete
eviction of a dirty block under write-through charges nothing. -/
theorem write_through_stays_clean_witness :
    (⟨1, 1, 4, true, true, true⟩ : CacheConfig).write_through = true ∧
    allClean (runTrace ⟨1, 1, 4, true, true, true⟩ [('s', 0), ('s', 4)]) ∧
    (evictBlock ⟨1, 1, 4, true, true, true⟩ [⟨true, true, 3, 1⟩] 5 7).2.2 = 0 :=
  ⟨by decide,
    (write_through_stays_clean ⟨1, 1, 4, true, true, true⟩ [('s', 0), ('s', 4)] (by decide)).1,
    (write_through_stays_clean ⟨1, 1, 4, true, true, true⟩ [('s', 0), ('s', 4)]
      (by decide)).2 [⟨true, true, 3, 1⟩] 5 7⟩

/-- The empty set has no duplicate tags. -/
theorem noDupTags_nil : noDupTags [] := by
  intro i j hi
  simp at hi

/-- Replacing a slot without changing its valid bit or tag preserves
tag uniqueness. -/
theorem noDupTags_set_same (blocks : List CacheBlock) (k : Nat) (b' : CacheBlock)
    (hv : b'.valid = (blocks.getD k CacheBlock.init).valid)
    (ht : b'.tag = (blocks.getD k CacheBlock.init).tag)
    (h : noDupTags blocks) : noDupTags (blocks.set k b') := by
  intro i j hi hj hij hvi hvj
  rw [List.length_set] at hi hj
  by_cases hik : k = i
  · subst hik
    rw [getD_set_eq _ _ _ _ hi] at hvi ⊢
    rw [getD_set_ne _ _ _ _ _ hij] at hvj ⊢
    rw [hv] at hvi
    rw [ht]
    exact h k j hi hj hij hvi hvj
  · by_cases hjk : k = j
    · subst hjk
      rw [getD_set_ne _ _ _ _ _ hik] at hvi ⊢
      rw [getD_set_eq _ _ _ _ hj] at hvj ⊢
      rw [hv] at hvj
      rw [ht]
      exact h i k hi hj hij hvi hvj
    · rw [getD_set_ne _ _ _ _ _ hik] at hvi ⊢
      rw [getD_set_ne _ _ _ _ _ hjk] at hvj ⊢
      exact h i j hi hj hij hvi hvj

/-- Installing a tag absent from every valid slot preserves tag
uniqueness. -/
theorem noDupTags_set_fresh (blocks : List CacheBlock) (k tag c : Nat)
    (hmiss : ∀ j, j < blocks.length → (blocks.getD j CacheBlock.init).valid = true →
      (blocks.getD j CacheBlock.init).tag ≠ tag)
    (h : noDupTags blocks) :
    noDupTags (blocks.set k (⟨true, false, tag, c⟩ : CacheBlock)) := by
  intro i j hi hj hij hvi hvj
  rw [List.length_set] at hi hj
  by_cases hik : k = i
  · subst hik
    rw [getD_set_eq _ _ _ _ hi]
    rw [getD_set_ne _ _ _ _ _ hij] at hvj ⊢
    intro he
    exact hmiss j hj hvj he.symm
  · by_cases hjk : k = j
    · subst hjk
      rw [getD_set_ne _ _ _ _ _ hik] at hvi ⊢
      rw [getD_set_eq _ _ _ _ hj]
      intro he
      exact hmiss i hi hvi he
    · rw [getD_set_ne _ _ _ _ _ hik] at hvi ⊢
      rw [getD_set_ne _ _ _ _ _ hjk] at hvj ⊢
      exact h i j hi hj hij hvi hvj

/-- Allocation preserves the set length. -/
theorem allocateBlock_length (cfg : CacheConfig) (blocks : List CacheBlock)
    (tag gc : Nat) : (allocateBlock cfg blocks tag gc).1.length = blocks.length := by
  unfold allocateBlock
  cases hfi : blocks.findIdx? (fun b => !b.valid) with
  | some i => simp
  | none =>
      unfold evictBlock
      simp

/-- Allocating a tag that missed preserves tag uniqueness. -/
theorem allocateBlock_noDupTags (cfg : CacheConfig) (blocks : List CacheBlock)
    (tag gc : Nat) (hmiss : findHitIdx blocks tag = none) (h : noDupTags blocks) :
    noDupTags (allocateBlock cfg blocks tag gc).1 := by
  by_cases hne : blocks = []
  · subst hne
    have he : (allocateBlock cfg ([] : List CacheBlock) tag gc).1 = [] := by
      unfold allocateBlock evictBlock
      simp
    rw [he]
    exact noDupTags_nil
  · obtain ⟨k, c, hk, heq⟩ := allocateBlock_shape cfg blocks tag gc hne
    rw [heq]
    exact noDupTags_set_fresh blocks k tag (gc + 1) (findHitIdx_none blocks tag hmiss) h

/-- A load preserves structural well-formedness. -/
theorem processLoad_SetsWF (cfg : CacheConfig) (st : SimState) (siA tag : Nat)
    (h : SetsWF cfg st) : SetsWF cfg (processLoad cfg st siA tag) := by
  obtain ⟨hlen, hall⟩ := h
  cases st with
  | mk sets gc tl ts lh lm sh sm tc =>
      simp only at hlen hall
      unfold processLoad
      cases hfi : findHitIdx (sets.getD siA []) tag with
      | some i =>
          simp only [hfi]
          by_cases hsiA : siA < sets.length
          · obtain ⟨hblen, hbdup⟩ := hall _ (getD_mem_of_lt sets siA [] hsiA)
            refine ⟨?_, allSets_set sets siA _ hall ⟨?_, ?_⟩⟩
            · simp only [List.length_set]
              exact hlen
            · simp only [List.length_set]
              exact hblen
            · exact noDupTags_set_same _ i _ (by rfl) (by rfl) hbdup
          · rw [List.set_eq_of_length_le (Nat.le_of_not_lt hsiA)]
            exact ⟨hlen, hall⟩
      | none =>
          simp only [hfi]
          by_cases hsiA : siA < sets.length
          · obtain ⟨hblen, hbdup⟩ := hall _ (getD_mem_of_lt sets siA [] hsiA)
            refine ⟨?_, allSets_set sets siA _ hall ⟨?_, ?_⟩⟩
            · simp only [List.length_set]
              exact hlen
            · rw [allocateBlock_length]
              exact hblen
            · exact allocateBlock_noDupTags cfg _ tag gc hfi hbdup
          · rw [List.set_eq_of_length_le (Nat.le_of_not_lt hsiA)]
            exact ⟨hlen, hall⟩

/-- A store preserves structural well-formedness. -/
theorem processStore_SetsWF (cfg : CacheConfig) (st : SimState) (siA tag : Nat)
    (h : SetsWF cfg st) : SetsWF cfg (processStore cfg st siA tag) := by
  obtain ⟨hlen, hall⟩ := h
  cases st with
  | mk sets gc tl ts lh lm sh sm tc =>
      simp only at hlen hall
      unfold processStore
      cases hfi : findHitIdx (sets.getD siA []) tag with
      | some i =>
          simp only [hfi]
          by_cases hsiA : siA < sets.length
          · obtain ⟨hblen, hbdup⟩ := hall _ (getD_mem_of_lt sets siA [] hsiA)
            refine ⟨?_, allSets_set sets siA _ hall ⟨?_, ?_⟩⟩
            · simp only [List.length_set]
              exact hlen
            · simp only [List.length_set]
              exact hblen
            · exact noDupTags_set_same _ i _ (by split <;> rfl) (by split <;> rfl) hbdup
          · rw [List.set_eq_of_length_le (Nat.le_of_not_lt hsiA)]
            exact ⟨hlen, hall⟩
      | none =>
          simp only [hfi]
          by_cases hwa : cfg.write_allocate = true
          · simp only [hwa, if_true]
            by_cases hsiA : siA < sets.length
            · obtain ⟨hblen, hbdup⟩ := hall _ (getD_mem_of_lt sets siA [] hsiA)
              have hnb : (allocateBlock cfg (sets.getD siA []) tag gc).1.length =
                  cfg.num_blocks_per_set := by
                rw [allocateBlock_length]
                exact hblen
              have hnd : noDupTags (allocateBlock cfg (sets.getD siA []) tag gc).1 :=
                allocateBlock_noDupTags cfg _ tag gc hfi hbdup
              by_cases hwt : cfg.write_through = true
              · simp only [hwt, Bool.not_true, Bool.false_eq_true, if_false]
                refine ⟨?_, allSets_set sets siA _ hall ⟨hnb, hnd⟩⟩
                simp only [List.length_set]
                exact hlen
              · rw [Bool.not_eq_true] at hwt
                simp only [hwt, Bool.not_false, if_true]
                cases hfi2 : findHitIdx (allocateBlock cfg (sets.getD siA []) tag gc).1 tag with
                | some k =>
                    simp only [hfi2, List.set_set]
                    refine ⟨?_, allSets_set sets siA _ hall ⟨?_, ?_⟩⟩
                    · simp only [List.length_set]
                      exact hlen
                    · simp only [List.length_set]
                      exact hnb
                    · exact noDupTags_set_same _ k _ (by rfl) (by rfl) hnd
                | none =>
                    simp only [hfi2]
                    refine ⟨?_, allSets_set sets siA _ hall ⟨hnb, hnd⟩⟩
                    simp only [List.length_set]
                    exact hlen
            · by_cases hwt : cfg.write_through = true
              · simp only [hwt, Bool.not_true, Bool.false_eq_true, if_false]
                rw [List.set_eq_of_length_le (Nat.le_of_not_lt hsiA)]
                exact ⟨hlen, hall⟩
              · rw [Bool.not_eq_true] at hwt
                simp only [hwt, Bool.not_false, if_true]
                cases hfi2 : findHitIdx (allocateBlock cfg (sets.getD siA []) tag gc).1 tag with
                | some k =>
                    simp only [hfi2, List.set_set]
                    rw [List.set_eq_of_length_le (Nat.le_of_not_lt hsiA)]
                    exact ⟨hlen, hall⟩
                | none =>
                    simp only [hfi2]
                    rw [List.set_eq_of_length_le (Nat.le_of_not_lt hsiA)]
                    exact ⟨hlen, hall⟩
          · rw [Bool.not_eq_true] at hwa
            simp only [hwa, Bool.false_eq_true, if_false]
            exact ⟨hlen, hall⟩

/-- The empty cache is well-formed. -/
theorem initState_SetsWF (cfg : CacheConfig) : SetsWF cfg (initState cfg) := by
  refine ⟨by simp [initState], ?_⟩
  intro s hs
  have hs' := List.eq_of_mem_replicate hs
  subst hs'
  refine ⟨by simp, ?_⟩
  intro i j hi hj hij hvi
  rw [List.getD_eq_getElem?_getD, List.getElem?_eq_getElem (by simpa using hi)] at hvi
  simp [CacheBlock.init] at hvi

/-- One access preserves structural well-formedness. -/
theorem processAccess_SetsWF (cfg : CacheConfig) (st : SimState) (op : Char)
    (addr : Nat) (h : SetsWF cfg st) : SetsWF cfg (processAccess cfg st op addr) := by
  unfold processAccess
  by_cases hop : op = 'l'
  · simp only [hop, if_true]
    exact processLoad_SetsWF cfg st _ _ h
  · simp only [hop, if_false]
    exact processStore_SetsWF cfg st _ _ h

/-- Every reachable state is structurally well-formed. -/
theorem runTrace_SetsWF (cfg : CacheConfig) (trace : List (Char × Nat)) :
    SetsWF cfg (runTrace cfg trace) := by
  unfold runTrace
  suffices h : ∀ st, SetsWF cfg st →
      SetsWF cfg (trace.foldl (fun st r => processAccess cfg st r.1 r.2) st) by
    exact h (initState cfg) (initState_SetsWF cfg)
  induction trace with
  | nil => exact fun st h => h
  | cons r rest ih =>
      intro st h
      exact ih _ (processAccess_SetsWF cfg st r.1 r.2 h)

/-- C8: after every access of every trace from the empty cache, every set
holds at most `associativity` valid blocks and no two valid blocks of a
set share a tag. -/
theorem capacity_and_unique_residency (cfg : CacheConfig) (trace : List (Char × Nat))
    (si : Nat) :
    countValid ((runTrace cfg trace).sets.getD si []) ≤ cfg.num_blocks_per_set ∧
    noDupTags ((runTrace cfg trace).sets.getD si []) := by
  obtain ⟨hlen, hall⟩ := runTrace_SetsWF cfg trace
  by_cases hsi : si < (runTrace cfg trace).sets.length
  · obtain ⟨hl, hd⟩ := hall _ (getD_mem_of_lt _ _ [] hsi)
    refine ⟨?_, hd⟩
    rw [← hl]
    exact List.countP_le_length _
  · rw [List.getD_eq_getElem?_getD, List.getElem?_eq_none (by omega)]
    exact ⟨by simp [countValid], noDupTags_nil⟩

end CacheSim
